import Mathlib

/-!
Verification of the three-tier audio cache subsystem of the kokori TTS
client (modules/cache: lru_cache.py, hot_cache.py, disk_cache.py,
manager.py), as a shallow embedding.

Modelling conventions:
* `Bytes` payloads are lists of naturals (one per byte).
* Python `float` speeds enter the cache code only through their printed
  form (f-strings); we therefore model `speed` as the rendered `String`.
* The filesystem seen by the disk tier is explicit state: a map from
  path to contents, the metadata side-file, and a set of paths whose
  `unlink` raises (the only I/O failure the claims depend on).
  Write/read I/O errors, which the code catches and converts to
  `False`/`None`, are not injected.
* Python `hash(text)` is process-salted, so it is a parameter
  `pyHash : String → Int` of every definition that uses it.
* Wall-clock time is a `Nat` argument `now`.
-/

namespace Kokori

abbrev Bytes := List Nat

/-! ### Association-list dictionaries (Python `dict` / `OrderedDict`) -/

/-- Python dict lookup: the unique binding of `k` (first match). -/
def lookupKey : List (String × β) → String → Option β
  | [], _ => none
  | (k2, v) :: rest, k => if k2 = k then some v else lookupKey rest k

/-- Python `del d[k]` / absence of `k`: drop every binding of `k`. -/
def eraseKey (l : List (String × β)) (k : String) : List (String × β) :=
  l.filter (fun p => p.1 ≠ k)

/-- Python `d[k] = v`: replace in place if present, else append. -/
def dictInsert : List (String × β) → String → β → List (String × β)
  | [], k, v => [(k, v)]
  | (k2, v2) :: rest, k, v =>
      if k2 = k then (k2, v) :: rest else (k2, v2) :: dictInsert rest k v

/-! ### SHA-256 (hashlib.sha256), 32-bit words as `Nat` mod 2^32 -/

def w32 (n : Nat) : Nat := n % 4294967296

/-- 32-bit right rotation (operand assumed `< 2^32`). -/
def rotr (n x : Nat) : Nat := x / 2 ^ n + w32 (x * 2 ^ (32 - n))

/-- 32-bit bitwise complement (operand assumed `< 2^32`). -/
def compl32 (x : Nat) : Nat := 4294967295 - x

def sha256K : List Nat :=
  [1116352408, 1899447441, 3049323471, 3921009573, 961987163,
   1508970993, 2453635748, 2870763221, 3624381080, 310598401,
   607225278, 1426881987, 1925078388, 2162078206, 2614888103,
   3248222580, 3835390401, 4022224774, 264347078, 604807628,
   770255983, 1249150122, 1555081692, 1996064986, 2554220882,
   2821834349, 2952996808, 3210313671, 3336571891, 3584528711,
   113926993, 338241895, 666307205, 773529912, 1294757372,
   1396182291, 1695183700, 1986661051, 2177026350, 2456956037,
   2730485921, 2820302411, 3259730800, 3345764771, 3516065817,
   3600352804, 4094571909, 275423344, 430227734, 506948616,
   659060556, 883997877, 958139571, 1322822218, 1537002063,
   1747873779, 1955562222, 2024104815, 2227730452, 2361852424,
   2428436474, 2756734187, 3204031479, 3329325298]

def smallSigma0 (x : Nat) : Nat := (rotr 7 x) ^^^ (rotr 18 x) ^^^ (x / 2 ^ 3)
def smallSigma1 (x : Nat) : Nat := (rotr 17 x) ^^^ (rotr 19 x) ^^^ (x / 2 ^ 10)
def bigSigma0 (x : Nat) : Nat := (rotr 2 x) ^^^ (rotr 13 x) ^^^ (rotr 22 x)
def bigSigma1 (x : Nat) : Nat := (rotr 6 x) ^^^ (rotr 11 x) ^^^ (rotr 25 x)
def chFn (e f g : Nat) : Nat := (e &&& f) ^^^ (compl32 e &&& g)
def majFn (a b c : Nat) : Nat := (a &&& b) ^^^ (a &&& c) ^^^ (b &&& c)

/-- Message schedule extension: given `w[i-16..i-1]` (most recent last),
extend by one word, `n` times. -/
def extendSchedule : Nat → List Nat → List Nat
  | 0, acc => acc
  | n + 1, acc =>
      let len := acc.length
      let w16 := acc.getD (len - 16) 0
      let w15 := acc.getD (len - 15) 0
      let w7 := acc.getD (len - 7) 0
      let w2 := acc.getD (len - 2) 0
      extendSchedule n (acc ++ [w32 (smallSigma1 w2 + w7 + smallSigma0 w15 + w16)])

structure Hash8 where
  a : Nat
  b : Nat
  c : Nat
  d : Nat
  e : Nat
  f : Nat
  g : Nat
  h : Nat

def sha256Round (st : Hash8) (kw : Nat × Nat) : Hash8 :=
  let t1 := w32 (st.h + bigSigma1 st.e + chFn st.e st.f st.g + kw.1 + kw.2)
  let t2 := w32 (bigSigma0 st.a + majFn st.a st.b st.c)
  ⟨w32 (t1 + t2), st.a, st.b, st.c, w32 (st.d + t1), st.e, st.f, st.g⟩

def addHash (x y : Hash8) : Hash8 :=
  ⟨w32 (x.a + y.a), w32 (x.b + y.b), w32 (x.c + y.c), w32 (x.d + y.d),
   w32 (x.e + y.e), w32 (x.f + y.f), w32 (x.g + y.g), w32 (x.h + y.h)⟩

def sha256Init : Hash8 :=
  ⟨1779033703, 3144134277, 1013904242, 2773480762,
   1359893119, 2600822924, 528734635, 1541459225⟩

/-- Combine 4 bytes big-endian into a word; the block is 64 bytes. -/
def bytesToWords : List Nat → List Nat
  | b0 :: b1 :: b2 :: b3 :: rest =>
      (((b0 * 256 + b1) * 256 + b2) * 256 + b3) :: bytesToWords rest
  | _ => []

def processBlock (st : Hash8) (block : List Nat) : Hash8 :=
  let w := extendSchedule 48 (bytesToWords block)
  addHash st (List.foldl sha256Round st (sha256K.zip w))

/-- Split into 64-byte blocks; `fuel` bounds the recursion and any
value `≥ l.length` gives the same result (each step consumes ≥ 64
bytes). -/
def chunks64Go : Nat → List Nat → List (List Nat)
  | _, [] => []
  | 0, x :: rest => [(x :: rest).take 64]
  | fuel + 1, x :: rest => ((x :: rest).take 64) :: chunks64Go fuel (rest.drop 63)

def chunks64 (l : List Nat) : List (List Nat) := chunks64Go l.length l

/-- Big-endian bytes of `n`, `k` bytes wide. -/
def beBytes : Nat → Nat → List Nat
  | 0, _ => []
  | k + 1, n => beBytes k (n / 256) ++ [n % 256]

def sha256Pad (msg : List Nat) : List Nat :=
  let bitLen := msg.length * 8
  let padZeros := (119 - msg.length % 64) % 64
  msg ++ [128] ++ List.replicate padZeros 0 ++ beBytes 8 bitLen

def sha256Digest (msg : List Nat) : Hash8 :=
  List.foldl processBlock sha256Init (chunks64 (sha256Pad msg))

def hexDigit (n : Nat) : Char :=
  if n < 10 then Char.ofNat (48 + n) else Char.ofNat (87 + n)

/-- Lowercase hex of a 32-bit word, 8 digits. -/
def hexWord32 (w : Nat) : List Char :=
  [hexDigit (w / 16 ^ 7 % 16), hexDigit (w / 16 ^ 6 % 16),
   hexDigit (w / 16 ^ 5 % 16), hexDigit (w / 16 ^ 4 % 16),
   hexDigit (w / 16 ^ 3 % 16), hexDigit (w / 16 ^ 2 % 16),
   hexDigit (w / 16 % 16), hexDigit (w % 16)]

/-- UTF-8 encoding of one code point. -/
def utf8Char (c : Char) : List Nat :=
  let n := c.toNat
  if n < 128 then [n]
  else if n < 2048 then [192 + n / 64, 128 + n % 64]
  else if n < 65536 then [224 + n / 4096, 128 + n / 64 % 64, 128 + n % 64]
  else [240 + n / 262144, 128 + n / 4096 % 64, 128 + n / 64 % 64, 128 + n % 64]

def utf8Encode (s : String) : List Nat := s.data.flatMap utf8Char

/-- `hashlib.sha256(s.encode()).hexdigest()`. -/
def sha256hex (s : String) : String :=
  let d := sha256Digest (utf8Encode s)
  String.mk (hexWord32 d.a ++ hexWord32 d.b ++ hexWord32 d.c ++ hexWord32 d.d ++
             hexWord32 d.e ++ hexWord32 d.f ++ hexWord32 d.g ++ hexWord32 d.h)

/-! ### Cache keys (disk_cache._get_cache_key, manager key expressions) -/

/-- The canonical string `f"{text}:{voice}:{speed}:{format}"`
(disk_cache.py line 44). -/
def canonicalString (text voice speed format : String) : String :=
  text ++ ":" ++ voice ++ ":" ++ speed ++ ":" ++ format

/-- `DiskCache._get_cache_key`: sha256 hex digest of the canonical string. -/
def diskCacheKey (text voice speed format : String) : String :=
  sha256hex (canonicalString text voice speed format)

/-- The manager's LRU-tier key `f"{hash(text)}_{voice}_{speed}_{format}"`
(manager.py lines 89, 116); `hash` is Python's salted builtin hash,
a parameter. -/
def lruCacheKey (pyHash : String → Int) (text voice speed format : String) : String :=
  toString (pyHash text) ++ "_" ++ voice ++ "_" ++ speed ++ "_" ++ format

/-- Python `str.lower()` (character-wise `Char.toLower`; agrees with
Python on ASCII). -/
def pyLower (s : String) : String := String.mk (s.data.map Char.toLower)

/-- Python `s[:n]` for strings. -/
def pyTake (s : String) (n : Nat) : String := String.mk (s.data.take n)

/-- The manager's hot-tier key `f"{text.lower()}_{voice}_{speed}_{format}"`
(manager.py lines 65, 86, 121). -/
def hotKeyOf (text voice speed format : String) : String :=
  pyLower text ++ "_" ++ voice ++ "_" ++ speed ++ "_" ++ format

/-! ### LRUCache (lru_cache.py)

The `OrderedDict` is an association list whose front is the
least-recently-used end (`popitem(last=False)` pops the front) and whose
back is the most-recently-used end (`move_to_end` and insertion append
at the back).  `current_memory` is an `Int`, as Python's `-=` has no
truncation. -/

structure LRUCache where
  max_size : Nat
  max_memory : Nat
  cache : List (String × (Bytes × Nat))
  current_memory : Int
  hits : Nat
  misses : Nat
deriving Repr, DecidableEq

/-- `LRUCache.__init__(max_size, max_memory_mb)`. -/
def LRUCache.init (max_size max_memory_mb : Nat) : LRUCache :=
  { max_size := max_size
    max_memory := max_memory_mb * 1024 * 1024
    cache := []
    current_memory := 0
    hits := 0
    misses := 0 }

/-- `OrderedDict.move_to_end(key)` (to the MRU end). -/
def moveToEnd (l : List (String × (Bytes × Nat))) (k : String) :
    List (String × (Bytes × Nat)) :=
  match lookupKey l k with
  | some e => eraseKey l k ++ [(k, e)]
  | none => l

/-- `LRUCache.get`: on a hit, move to the MRU end, bump `hits`, return
the stored bytes; on a miss bump `misses` and return `None`. -/
def LRUCache.get (c : LRUCache) (key : String) : Option Bytes × LRUCache :=
  match lookupKey c.cache key with
  | some e =>
      (some e.1, { c with cache := moveToEnd c.cache key, hits := c.hits + 1 })
  | none => (none, { c with misses := c.misses + 1 })

/-- The `while` eviction loop of `LRUCache.put`: pop from the LRU end
while the cache is non-empty and over either limit. -/
def evictLoop (max_size : Nat) (max_memory : Int) (size : Nat) :
    List (String × (Bytes × Nat)) → Int → List (String × (Bytes × Nat)) × Int
  | [], mem => ([], mem)
  | (k0, e0) :: rest, mem =>
      if ((k0, e0) :: rest).length ≥ max_size ∨ mem + size > max_memory then
        evictLoop max_size max_memory size rest (mem - e0.2)
      else ((k0, e0) :: rest, mem)

/-- `LRUCache.put`: drop any old binding of `key` (subtracting its
recorded size), evict while over limits, then append the new entry at
the MRU end. -/
def LRUCache.put (c : LRUCache) (key : String) (value : Bytes) : LRUCache :=
  let size := value.length
  let removed :=
    match lookupKey c.cache key with
    | some e => (eraseKey c.cache key, c.current_memory - e.2)
    | none => (c.cache, c.current_memory)
  let evicted := evictLoop c.max_size c.max_memory size removed.1 removed.2
  { c with
    cache := evicted.1 ++ [(key, (value, size))]
    current_memory := evicted.2 + size }

/-- `LRUCache.clear`. -/
def LRUCache.clear (c : LRUCache) : LRUCache :=
  { c with cache := [], current_memory := 0, hits := 0, misses := 0 }

/-! ### HotCache (hot_cache.py) -/

structure HotCache where
  cache : List (String × Bytes)
  hot_cache_keys : List String
deriving Repr, DecidableEq

/-- `HotCache.__init__(hot_cache_keys)`. -/
def HotCache.init (keys : List String) : HotCache :=
  { cache := [], hot_cache_keys := keys }

/-- `HotCache.get`: `self.cache.get(key)`. -/
def HotCache.get (h : HotCache) (key : String) : Option Bytes :=
  lookupKey h.cache key

/-- `HotCache.put`: stores only when `key.lower()` is in the curated
set — the *whole* key passed in, not its text portion. -/
def HotCache.put (h : HotCache) (key : String) (value : Bytes) : HotCache :=
  if pyLower key ∈ h.hot_cache_keys then
    { h with cache := dictInsert h.cache key value }
  else h

/-- `HotCache.clear`: drops stored bytes, keeps the curated set. -/
def HotCache.clear (h : HotCache) : HotCache :=
  { h with cache := [] }

/-- `HotCache.add_hot_key`: `self.hot_cache_keys.add(key.lower())`. -/
def HotCache.add_hot_key (h : HotCache) (key : String) : HotCache :=
  if pyLower key ∈ h.hot_cache_keys then h
  else { h with hot_cache_keys := pyLower key :: h.hot_cache_keys }

/-- `HotCache.remove_hot_key`: discard `key.lower()` from the curated
set and delete the binding of the exact `key` (as passed) from the
stored table, if present. -/
def HotCache.remove_hot_key (h : HotCache) (key : String) : HotCache :=
  { h with
    hot_cache_keys := h.hot_cache_keys.filter (fun k => k ≠ pyLower key)
    cache := eraseKey h.cache key }

/-- `HotCache.is_hot_key`. -/
def HotCache.is_hot_key (h : HotCache) (key : String) : Bool :=
  pyLower key ∈ h.hot_cache_keys

/-! ### DiskCache (disk_cache.py)

Filesystem model: `files` maps a path to its contents; `metaFile` is
the state of `metadata.json` (absent, unparseable, or a parsed map);
`undeletable` lists paths whose `unlink()` raises (the failure mode
eviction must skip).  Reads of existing files succeed; writes succeed
(the code catches write errors and returns `False`, a branch we do not
inject). -/

structure DiskEntry where
  path : String
  size : Nat
  created : Nat
  last_access : Nat
  access_count : Nat
  text_preview : String
  voice : String
  format : String
deriving Repr, DecidableEq

inductive MetaFile where
  | absent
  | corrupt
  | good (m : List (String × DiskEntry))
deriving Repr, DecidableEq

structure FS where
  files : List (String × Bytes)
  metaFile : MetaFile
  undeletable : List String
deriving Repr, DecidableEq

structure DiskCache where
  max_size : Nat
  metadata : List (String × DiskEntry)
deriving Repr, DecidableEq

/-- `TEXT_PREVIEW_LENGTH` (constants.py line 24). -/
def TEXT_PREVIEW_LENGTH : Nat := 100

/-- `DiskCache._load_metadata`: parse `metadata.json` if present;
a missing or unparseable file yields an empty map. -/
def loadMetadata : MetaFile → List (String × DiskEntry)
  | MetaFile.good m => m
  | _ => []

/-- `DiskCache.__init__`: `max_size_gb` is taken already converted to a
byte count `max_size`; metadata is loaded from the metadata file. -/
def DiskCache.init (max_size : Nat) (fs : FS) : DiskCache :=
  { max_size := max_size, metadata := loadMetadata fs.metaFile }

/-- `DiskCache._save_metadata`: rewrite `metadata.json`. -/
def saveMetadata (fs : FS) (md : List (String × DiskEntry)) : FS :=
  { fs with metaFile := MetaFile.good md }

/-- Python `\w` (ASCII view), used by `clean_filename_text`. -/
def isWordChar (c : Char) : Bool := c.isAlphanum || c = '_'

/-- Collapse runs of `[-\s]+` into single underscores
(`clean_filename_text`, second `re.sub`); the flag records whether the
previous character was part of a separator run. -/
def collapseSepsGo : Bool → List Char → List Char
  | _, [] => []
  | inRun, c :: rest =>
      if c = '-' || c.isWhitespace then
        if inRun then collapseSepsGo true rest
        else '_' :: collapseSepsGo true rest
      else c :: collapseSepsGo false rest

def collapseSeps (l : List Char) : List Char := collapseSepsGo false l

/-- Python `str.strip()`: drop whitespace from both ends. -/
def pyStrip (l : List Char) : List Char :=
  ((l.dropWhile Char.isWhitespace).reverse.dropWhile Char.isWhitespace).reverse

/-- `clean_filename_text(text, max_length)` (text_processing.py):
drop characters outside `[\w\s-]`, truncate, strip, then collapse
`[-\s]+` runs to `_`. -/
def clean_filename_text (text : String) (max_length : Nat) : String :=
  let kept := text.data.filter (fun c => isWordChar c || c.isWhitespace || c = '-')
  String.mk (collapseSeps (pyStrip (kept.take max_length)))

/-- `clean_voice_for_filename(voice)`: `+`→`_`, drop `(`/`)`, `:`→`_`. -/
def clean_voice_for_filename (voice : String) : String :=
  String.mk ((voice.data.filter (fun c => c ≠ '(' && c ≠ ')')).map
    (fun c => if c = '+' || c = ':' then '_' else c))

/-- The cache directory (`~/.claude_tts/cache/audio`). -/
def cacheDir : String := "~/.claude_tts/cache/audio"

/-- `DiskCache._get_cache_path(cache_key, voice, text_preview, format)`. -/
def diskCachePath (cache_key voice text_preview format : String) : String :=
  cacheDir ++ "/" ++ clean_voice_for_filename voice ++ "_" ++
    pyTake cache_key 8 ++ "_" ++ clean_filename_text text_preview 30 ++ "." ++ format

/-- `DiskCache.get`: look up the content-hash in metadata.  Hit with an
existing file: bump the access fields, persist metadata, return the file
contents.  Hit with a missing file: purge the stale record, persist
metadata, report absence.  No record: absence, state untouched. -/
def DiskCache.get (d : DiskCache) (fs : FS) (now : Nat)
    (text voice speed format : String) : Option Bytes × DiskCache × FS :=
  let cache_key := diskCacheKey text voice speed format
  match lookupKey d.metadata cache_key with
  | none => (none, d, fs)
  | some e =>
      match lookupKey fs.files e.path with
      | some contents =>
          let md := dictInsert d.metadata cache_key
            { e with last_access := now, access_count := e.access_count + 1 }
          (some contents, { d with metadata := md }, saveMetadata fs md)
      | none =>
          let md := eraseKey d.metadata cache_key
          (none, { d with metadata := md }, saveMetadata fs md)

/-- Sum of the `size` fields of all metadata records
(`sum(entry['size'] for entry in self.metadata.values())`). -/
def totalSize (md : List (String × DiskEntry)) : Int :=
  (md.map (fun p => (p.2.size : Int))).sum

/-- Ordering used by `_cleanup_if_needed`'s `sorted(..., key=last_access)`. -/
def leLastAccess (a b : String × DiskEntry) : Prop :=
  a.2.last_access ≤ b.2.last_access

instance : DecidableRel leLastAccess := fun a b =>
  inferInstanceAs (Decidable (a.2.last_access ≤ b.2.last_access))

instance : IsTotal (String × DiskEntry) leLastAccess :=
  ⟨fun a b => Nat.le_total a.2.last_access b.2.last_access⟩

instance : IsTrans (String × DiskEntry) leLastAccess :=
  ⟨fun _ _ _ hab hbc => Nat.le_trans hab hbc⟩

/-- `sorted(self.metadata.items(), key=lambda x: x[1]['last_access'])`
(a stable ascending sort, like Python's). -/
def sortByLastAccess (md : List (String × DiskEntry)) : List (String × DiskEntry) :=
  md.insertionSort leLastAccess

/-- One candidate of the eviction `while` loop body: if the file exists
and `unlink` raises, the `except` skips the decrement and the metadata
deletion; otherwise the file (if present) is removed, the metadata
record dropped and the running total decremented. -/
def evictStep (st : List (String × DiskEntry) × FS × Int) (c : String × DiskEntry) :
    List (String × DiskEntry) × FS × Int :=
  if c.2.path ∈ st.2.1.undeletable ∧ (lookupKey st.2.1.files c.2.path).isSome then
    st
  else
    (eraseKey st.1 c.1,
     { st.2.1 with files := eraseKey st.2.1.files c.2.path },
     st.2.2 - c.2.size)

/-- The eviction `while` loop of `_cleanup_if_needed`: walk the sorted
candidates, applying `evictStep`, while the incoming write still does
not fit. -/
def evictDisk (new_size max_size : Nat) :
    List (String × DiskEntry) → List (String × DiskEntry) × FS × Int →
    List (String × DiskEntry) × FS × Int
  | [], st => st
  | c :: rest, st =>
      if st.2.2 + new_size > max_size then
        evictDisk new_size max_size rest (evictStep st c)
      else st

/-- `DiskCache._cleanup_if_needed(new_size)`. -/
def cleanupIfNeeded (d : DiskCache) (fs : FS) (new_size : Nat) :
    DiskCache × FS :=
  let total := totalSize d.metadata
  if total + new_size > d.max_size then
    let res := evictDisk new_size d.max_size (sortByLastAccess d.metadata)
      (d.metadata, fs, total)
    ({ d with metadata := res.1 }, res.2.1)
  else (d, fs)

/-- `DiskCache.put`: evict if needed, write the audio file, insert a
fresh metadata record, persist metadata, return `True`. -/
def DiskCache.put (d : DiskCache) (fs : FS) (now : Nat)
    (text voice speed format : String) (audio_data : Bytes) :
    Bool × DiskCache × FS :=
  let cache_key := diskCacheKey text voice speed format
  let file_path := diskCachePath cache_key voice text format
  let cleaned := cleanupIfNeeded d fs audio_data.length
  let fs2 := { cleaned.2 with files := dictInsert cleaned.2.files file_path audio_data }
  let md := dictInsert cleaned.1.metadata cache_key
    { path := file_path
      size := audio_data.length
      created := now
      last_access := now
      access_count := 1
      text_preview := pyTake text TEXT_PREVIEW_LENGTH
      voice := voice
      format := format }
  (true, { cleaned.1 with metadata := md }, saveMetadata fs2 md)

/-- `DiskCache.clear`: best-effort unlink of every referenced file
(failures skipped), then empty and persist the metadata. -/
def DiskCache.clear (d : DiskCache) (fs : FS) : DiskCache × FS :=
  let fs2 := d.metadata.foldl
    (fun acc p =>
      if p.2.path ∈ acc.undeletable ∧ (lookupKey acc.files p.2.path).isSome then acc
      else { acc with files := eraseKey acc.files p.2.path })
    fs
  ({ d with metadata := [] }, saveMetadata fs2 [])

/-! ### CacheManager (manager.py) -/

structure CacheManager where
  hot : HotCache
  disk : DiskCache
  lru : LRUCache
deriving Repr, DecidableEq

/-- `CacheManager.__init__(max_cache_size, max_cache_memory_mb,
max_disk_cache_gb→bytes, hot_cache_keys)`. -/
def CacheManager.init (max_cache_size max_cache_memory_mb disk_max_bytes : Nat)
    (hot_cache_keys : List String) (fs : FS) : CacheManager :=
  { hot := HotCache.init hot_cache_keys
    disk := DiskCache.init disk_max_bytes fs
    lru := LRUCache.init max_cache_size max_cache_memory_mb }

/-- Python truthiness of an optional byte string: `None` and `b""` are
falsy (this is the test `if hot_result:` / `if disk_result:` /
`if lru_result:` applies). -/
def truthy : Option Bytes → Bool
  | none => false
  | some b => !b.isEmpty

/-- `CacheManager.get_audio`: Hot tier (only when the lowercase text is
curated), then Disk (with promotion into Hot-if-curated and LRU), then
the LRU tier.  Each tier's result is gated by Python truthiness. -/
def CacheManager.get_audio (pyHash : String → Int) (m : CacheManager) (fs : FS)
    (now : Nat) (text voice speed format : String) :
    Option Bytes × CacheManager × FS :=
  let hot_result :=
    if pyLower text ∈ m.hot.hot_cache_keys then
      m.hot.get (hotKeyOf text voice speed format)
    else none
  if truthy hot_result then (hot_result, m, fs)
  else
    let diskRes := m.disk.get fs now text voice speed format
    if truthy diskRes.1 then
      let data := diskRes.1.getD []
      let hot2 :=
        if pyLower text ∈ m.hot.hot_cache_keys then
          m.hot.put (hotKeyOf text voice speed format) data
        else m.hot
      let lru2 := m.lru.put (lruCacheKey pyHash text voice speed format) data
      (diskRes.1, { hot := hot2, disk := diskRes.2.1, lru := lru2 }, diskRes.2.2)
    else
      let lruRes := m.lru.get (lruCacheKey pyHash text voice speed format)
      if truthy lruRes.1 then
        (lruRes.1, { m with disk := diskRes.2.1, lru := lruRes.2 }, diskRes.2.2)
      else
        (none, { m with disk := diskRes.2.1, lru := lruRes.2 }, diskRes.2.2)

/-- `CacheManager.put_audio`: always write to Disk and LRU; write to
Hot only when the lowercase text is curated. -/
def CacheManager.put_audio (pyHash : String → Int) (m : CacheManager) (fs : FS)
    (now : Nat) (text voice speed format : String) (audio_data : Bytes) :
    CacheManager × FS :=
  let diskRes := m.disk.put fs now text voice speed format audio_data
  let lru2 := m.lru.put (lruCacheKey pyHash text voice speed format) audio_data
  let hot2 :=
    if pyLower text ∈ m.hot.hot_cache_keys then
      m.hot.put (hotKeyOf text voice speed format) audio_data
    else m.hot
  ({ hot := hot2, disk := diskRes.2.1, lru := lru2 }, diskRes.2.2)

/-- `CacheManager.clear_cache(tier)`: clear the matching tiers; a
`tier` matching none of `"hot"`, `"disk"`, `"memory"`, `None` falls
through every `if` and the call returns with nothing cleared and no
error raised. -/
def CacheManager.clear_cache (m : CacheManager) (fs : FS) (tier : Option String) :
    CacheManager × FS :=
  let hot2 := if tier = some "hot" ∨ tier = none then m.hot.clear else m.hot
  let diskRes :=
    if tier = some "disk" ∨ tier = none then m.disk.clear fs else (m.disk, fs)
  let lru2 := if tier = some "memory" ∨ tier = none then m.lru.clear else m.lru
  ({ hot := hot2, disk := diskRes.1, lru := lru2 }, diskRes.2)


/-! ### Auxiliary notions for the statements -/

/-- Sum of the recorded sizes of the LRU entries. -/
def sumSizes (l : List (String × (Bytes × Nat))) : Int :=
  (l.map (fun p => (p.2.2 : Int))).sum

/-- Well-formedness of an `LRUCache` state: distinct keys (it is a
Python dict), each entry's recorded size is the byte length of its
stored value, and `current_memory` is the sum of the recorded sizes. -/
def LRUCache.WF (c : LRUCache) : Prop :=
  (c.cache.map Prod.fst).Nodup ∧
  (∀ p ∈ c.cache, p.2.2 = p.2.1.length) ∧
  c.current_memory = sumSizes c.cache

instance (c : LRUCache) : Decidable c.WF := by
  unfold LRUCache.WF; infer_instance

/-- The public operations of the LRU tier, for stating invariants over
arbitrary operation sequences. -/
inductive LRUOp where
  | get (key : String)
  | put (key : String) (value : Bytes)
  | clear
deriving Repr

def LRUCache.apply (c : LRUCache) : LRUOp → LRUCache
  | LRUOp.get k => (c.get k).2
  | LRUOp.put k v => c.put k v
  | LRUOp.clear => c.clear

def LRUCache.run (c : LRUCache) (ops : List LRUOp) : LRUCache :=
  ops.foldl LRUCache.apply c

/-- Sum of the actual byte lengths of the values held by the LRU tier
(what `stats()["memory_mb"]` claims to report, up to the MB division). -/
def actualBytes (c : LRUCache) : Int :=
  (c.cache.map (fun p => (p.2.1.length : Int))).sum

/-! ### Concrete fixtures used by witnesses and counterexamples -/

def fsEmpty : FS := { files := [], metaFile := MetaFile.absent, undeletable := [] }

def phZero : String → Int := fun _ => 0

/-- A fresh manager: defaults of `CacheManager.__init__` (100 items,
100 MB, 1 GB disk, no curated keys). -/
def freshManager : CacheManager :=
  CacheManager.init 100 100 1073741824 [] fsEmpty

/-- A fresh manager whose curated hot-key set is `{"hello"}`. -/
def mgrHot : CacheManager :=
  CacheManager.init 100 100 1073741824 ["hello"] fsEmpty

/-- A hot tier holding two entries, `"hello"` curated. -/
def hotFix : HotCache :=
  { cache := [("hello_af_bella_1.0_wav", [1, 2, 3]), ("hello", [9])]
    hot_cache_keys := ["hello", "x"] }

def entryFix : DiskEntry :=
  { path := "~/.claude_tts/cache/audio/af_bella_8c6976e5_hi.wav"
    size := 3
    created := 5
    last_access := 7
    access_count := 1
    text_preview := "hi"
    voice := "af_bella"
    format := "wav" }

/-- A manager whose three tiers are all non-empty. -/
def mgrFix : CacheManager :=
  { hot := { cache := [("hello_af_bella_1.0_wav", [1, 2, 3])], hot_cache_keys := ["hello"] }
    disk := { max_size := 1024, metadata := [("k1", entryFix)] }
    lru := { max_size := 10, max_memory := 10485760, cache := [("x", ([2], 1))]
             current_memory := 1, hits := 0, misses := 0 } }

def fsFix : FS :=
  { files := [("~/.claude_tts/cache/audio/af_bella_8c6976e5_hi.wav", [1, 2, 3])]
    metaFile := MetaFile.good [("k1", entryFix)]
    undeletable := [] }

/-- A disk tier holding one metadata record for the request
`("hi", "af_bella", 1.0, "wav")`. -/
def diskFix : DiskCache :=
  { max_size := 1024
    metadata := [(diskCacheKey "hi" "af_bella" "1.0" "wav", entryFix)] }

/-- A filesystem in which `diskFix`'s referenced file is missing. -/
def fsNoFile : FS :=
  { files := []
    metaFile := MetaFile.good [(diskCacheKey "hi" "af_bella" "1.0" "wav", entryFix)]
    undeletable := [] }

/-- A full two-item LRU tier (`max_size = 2`), `"a"` least recent. -/
def cFix : LRUCache := ((LRUCache.init 2 100).put "a" [1]).put "b" [2]

/-! ## Theorems

First the dictionary and key-builder lemmas, then the per-claim
development. -/

@[simp] theorem lookupKey_nil (k : String) : lookupKey ([] : List (String × β)) k = none := rfl

@[simp] theorem lookupKey_cons (k3 : String) (v3 : β) (rest : List (String × β)) (k : String) :
    lookupKey ((k3, v3) :: rest) k = if k3 = k then some v3 else lookupKey rest k := rfl

@[simp] theorem eraseKey_nil (k : String) : eraseKey ([] : List (String × β)) k = [] := rfl

theorem eraseKey_cons (k3 : String) (v3 : β) (rest : List (String × β)) (k : String) :
    eraseKey ((k3, v3) :: rest) k =
      if k3 = k then eraseKey rest k else (k3, v3) :: eraseKey rest k := by
  by_cases h : k3 = k <;> simp [eraseKey, List.filter, h]

theorem lookupKey_dictInsert_self (l : List (String × β)) (k : String) (v : β) :
    lookupKey (dictInsert l k v) k = some v := by
  induction l with
  | nil => simp [dictInsert]
  | cons p rest ih =>
      obtain ⟨k2, v2⟩ := p
      by_cases h : k2 = k
      · simp [dictInsert, h]
      · simp [dictInsert, h, ih]

theorem lookupKey_dictInsert_ne (l : List (String × β)) (k k2 : String) (v : β)
    (h : k2 ≠ k) : lookupKey (dictInsert l k v) k2 = lookupKey l k2 := by
  have h2 : k ≠ k2 := fun hh => h hh.symm
  induction l with
  | nil => simp [dictInsert, h2]
  | cons p rest ih =>
      obtain ⟨k3, v3⟩ := p
      by_cases h3 : k3 = k
      · subst h3
        simp [dictInsert, h2]
      · simp [dictInsert, h3, ih]

theorem lookupKey_eraseKey_self (l : List (String × β)) (k : String) :
    lookupKey (eraseKey l k) k = none := by
  induction l with
  | nil => simp
  | cons p rest ih =>
      obtain ⟨k2, v2⟩ := p
      rw [eraseKey_cons]
      by_cases h : k2 = k
      · simpa [h] using ih
      · simp [h, ih]

theorem lookupKey_eraseKey_ne (l : List (String × β)) (k k2 : String)
    (h : k2 ≠ k) : lookupKey (eraseKey l k) k2 = lookupKey l k2 := by
  induction l with
  | nil => simp
  | cons p rest ih =>
      obtain ⟨k3, v3⟩ := p
      rw [eraseKey_cons]
      by_cases h3 : k3 = k
      · subst h3
        have h4 : k3 ≠ k2 := fun hh => h hh.symm
        simp [h4, ih]
      · simp [h3, ih]

theorem sha256hex_length (s : String) : (sha256hex s).length = 64 := by
  simp [sha256hex, String.length, hexWord32]

/-! ### Further dictionary lemmas -/

theorem lookupKey_eq_none_of_forall_ne (l : List (String × β)) (k : String)
    (h : ∀ p ∈ l, p.1 ≠ k) : lookupKey l k = none := by
  induction l with
  | nil => rfl
  | cons p rest ih =>
      obtain ⟨k2, v2⟩ := p
      have h2 : k2 ≠ k := h (k2, v2) (List.mem_cons_self _ _)
      simp only [lookupKey_cons, if_neg h2]
      exact ih (fun q hq => h q (List.mem_cons_of_mem _ hq))

theorem mem_eraseKey_ne (l : List (String × β)) (k : String) :
    ∀ p ∈ eraseKey l k, p.1 ≠ k := by
  intro p hp
  have := List.of_mem_filter hp
  simpa using this

theorem eraseKey_sublist (l : List (String × β)) (k : String) :
    (eraseKey l k).Sublist l := List.filter_sublist l

theorem eraseKey_of_forall_ne (l : List (String × β)) (k : String)
    (h : ∀ p ∈ l, p.1 ≠ k) : eraseKey l k = l := by
  apply List.filter_eq_self.mpr
  intro p hp
  simpa using h p hp

/-! ### C3 — HotCache.put gating (code bug)

`HotCache.put` tests `key.lower() in self.hot_cache_keys`, i.e. the
*entire* composite key, against the curated set of lowercase *texts*.
A put built the way the manager builds it, after the text has been
curated, is therefore a silent no-op, and the subsequent get misses.
This is exactly the input of the repository's own self-test
(`test_modular_architecture.py`, `test_cache_system`, lines 298-300),
whose assertion `hot_cache.get(...) == b"hot_data"` fails on this code.
-/

/-- C3: at the repo's own test input — curated set `{"test_message"}`,
composite key `"test_message_af_bella_1.0_wav"` — `put` stores nothing
and `get` returns `None`, although the claim (and the repo's test)
require the stored bytes back. -/
theorem C3_hot_put_noop_on_curated_text :
    ((HotCache.init ["test_message"]).put "test_message_af_bella_1.0_wav"
        [104, 111, 116]).get "test_message_af_bella_1.0_wav" = none ∧
    ((HotCache.init ["test_message"]).put "test_message_af_bella_1.0_wav"
        [104, 111, 116]).cache = [] := by
  constructor
  · decide
  · decide

/-! ### C5 — remove_hot_key does not purge variants (corrected) -/

/-- C5 counterexample: a reachable state in which the variant entry
`"hello_af_bella_1.0_wav"` is stored; `remove_hot_key "hello"` leaves
it retrievable, though the claim demands absence for every
voice/speed/format variant of the removed text. -/
theorem C5_remove_hot_key_keeps_variant :
    (((((HotCache.init []).add_hot_key "hello").add_hot_key
          "hello_af_bella_1.0_wav").put "hello_af_bella_1.0_wav"
            [1, 2, 3]).remove_hot_key "hello").get
      "hello_af_bella_1.0_wav" = some [1, 2, 3] := by
  decide

/-- C5 amended: `remove_hot_key(text)` removes the lowercased text from
the curated set and deletes only the entry stored under the exact key
`text` (if any); entries under any other key — in particular all
composite voice/speed/format variants — are untouched. -/
theorem C5_remove_hot_key_exact (h : HotCache) (key : String) :
    (h.remove_hot_key key).hot_cache_keys =
      h.hot_cache_keys.filter (fun k => k ≠ pyLower key) ∧
    (h.remove_hot_key key).get key = none ∧
    ∀ k2, k2 ≠ key → (h.remove_hot_key key).get k2 = h.get k2 := by
  refine ⟨rfl, ?_, ?_⟩
  · simp [HotCache.remove_hot_key, HotCache.get, lookupKey_eraseKey_self]
  · intro k2 hne
    simp [HotCache.remove_hot_key, HotCache.get, lookupKey_eraseKey_ne _ _ _ hne]

theorem C5_remove_hot_key_exact_witness :
    ("hello_af_bella_1.0_wav" ≠ "hello") ∧
    (hotFix.remove_hot_key "hello").get "hello" = none ∧
    (hotFix.remove_hot_key "hello").get "hello_af_bella_1.0_wav" =
      hotFix.get "hello_af_bella_1.0_wav" :=
  ⟨by decide, (C5_remove_hot_key_exact hotFix "hello").2.1,
   (C5_remove_hot_key_exact hotFix "hello").2.2 "hello_af_bella_1.0_wav" (by decide)⟩

/-! ### C6 — clear_cache with an unknown tier (corrected) -/

/-- C6 counterexample: with all three tiers non-empty, `clear_cache`
on the unknown tier name `"bogus"` returns with every tier intact and
no error of any kind (the function's result carries no error channel,
mirroring the Python method that returns `None` and raises nothing). -/
theorem C6_clear_cache_bogus_silently_accepted :
    mgrFix.clear_cache fsFix (some "bogus") = (mgrFix, fsFix) ∧
    mgrFix.hot.cache ≠ [] ∧ mgrFix.disk.metadata ≠ [] ∧ mgrFix.lru.cache ≠ [] := by
  refine ⟨by decide, by decide, by decide, by decide⟩

/-- C6 amended: `clear_cache` with a tier name other than `"hot"`,
`"disk"`, `"memory"` or the all-tiers default is silently accepted: no
tier is cleared, no error is raised or returned. -/
theorem C6_clear_cache_unknown_tier (m : CacheManager) (fs : FS) (tier : Option String)
    (h1 : tier ≠ some "hot") (h2 : tier ≠ some "disk")
    (h3 : tier ≠ some "memory") (h4 : tier ≠ none) :
    m.clear_cache fs tier = (m, fs) := by
  simp [CacheManager.clear_cache, h1, h2, h3, h4]

/-! ### C4 — key derivation of the two bounded tiers (corrected)

The Disk Tier hashes the canonical `text:voice:speed:format` string
with SHA-256, but the Memory-LRU key (built in `CacheManager.get_audio`
/ `put_audio`) is `str(hash(text)) + "_" + voice + "_" + speed + "_" +
format` — Python's salted builtin hash of the text only, no
cryptographic digest.  Moreover neither derivation collides exactly on
input coincidence: components containing the separator make distinct
4-tuples share a key. -/

set_option maxRecDepth 100000

/-- C4 counterexample: the two distinct requests
`("a:b", "c", 1.0, wav)` and `("a", "b:c", 1.0, wav)` have the same
canonical string, hence the same Disk-Tier key — keys do not "collide
exactly when the four inputs coincide". -/
theorem C4_disk_key_collision :
    diskCacheKey "a:b" "c" "1.0" "wav" = diskCacheKey "a" "b:c" "1.0" "wav" ∧
    ("a:b", "c") ≠ ("a", "b:c") := by
  constructor
  · rfl
  · decide

/-- C4 amended: the Disk-Tier key is the SHA-256 hex digest of the
canonical string (a pure function of it, always 64 characters), while
the LRU-Tier key is a different derivation that never hashes
voice/speed/format at all: distinct voice/format pairs can share the
LRU key for every possible hash salt, while the Disk keys of the same
two requests differ — so the two tiers do not agree on key equality,
and neither derivation collides exactly at input coincidence. -/
theorem C4_key_derivations :
    (∀ t1 v1 s1 f1 t2 v2 s2 f2 : String,
      canonicalString t1 v1 s1 f1 = canonicalString t2 v2 s2 f2 →
        diskCacheKey t1 v1 s1 f1 = diskCacheKey t2 v2 s2 f2) ∧
    (∀ t v s f : String, (diskCacheKey t v s f).length = 64) ∧
    (∀ pyHash : String → Int, ∀ t : String,
      lruCacheKey pyHash t "a_1.0" "1.0" "wav" = lruCacheKey pyHash t "a" "1.0" "1.0_wav") ∧
    diskCacheKey "t" "a_1.0" "1.0" "wav" ≠ diskCacheKey "t" "a" "1.0" "1.0_wav" := by
  refine ⟨?_, ?_, ?_, ?_⟩
  · intro t1 v1 s1 f1 t2 v2 s2 f2 h
    unfold diskCacheKey
    exact congrArg sha256hex h
  · intro t v s f
    exact sha256hex_length _
  · intro pyHash t
    unfold lruCacheKey
    simp [String.append_assoc]
  · decide

theorem C4_key_derivations_witness :
    canonicalString "x" "v" "1.0" "wav" = canonicalString "x" "v" "1.0" "wav" ∧
    diskCacheKey "x" "v" "1.0" "wav" = diskCacheKey "x" "v" "1.0" "wav" :=
  ⟨rfl, (C4_key_derivations.1 "x" "v" "1.0" "wav" "x" "v" "1.0" "wav" rfl)⟩

/-! ### C7 — disk tier self-healing (confirmed) -/

/-- C7: (i) when a request's content-hash has a metadata record whose
referenced file is missing, `DiskCache.get` deletes the stale record,
persists the shrunken metadata to the metadata file, and reports
absence; (ii) initialization from a missing or unparseable metadata
file yields an empty cache. -/
theorem C7_disk_self_heal (d : DiskCache) (fs : FS) (now : Nat)
    (t v s f : String) (e : DiskEntry)
    (hmd : lookupKey d.metadata (diskCacheKey t v s f) = some e)
    (hfile : lookupKey fs.files e.path = none) :
    d.get fs now t v s f =
      (none,
       { d with metadata := eraseKey d.metadata (diskCacheKey t v s f) },
       saveMetadata fs (eraseKey d.metadata (diskCacheKey t v s f))) ∧
    (∀ msize : Nat, ∀ fs2 : FS,
      fs2.metaFile = MetaFile.absent ∨ fs2.metaFile = MetaFile.corrupt →
        (DiskCache.init msize fs2).metadata = []) := by
  constructor
  · simp [DiskCache.get, hmd, hfile]
  · intro msize fs2 h
    rcases h with h | h <;> simp [DiskCache.init, loadMetadata, h]

theorem C7_disk_self_heal_witness :
    (diskFix.get fsNoFile 42 "hi" "af_bella" "1.0" "wav").1 = none ∧
    (DiskCache.init 1024 fsEmpty).metadata = [] := by
  have hmd : lookupKey diskFix.metadata (diskCacheKey "hi" "af_bella" "1.0" "wav") =
      some entryFix := by
    rw [diskFix, lookupKey_cons]
    exact if_pos rfl
  have h := C7_disk_self_heal diskFix fsNoFile 42 "hi" "af_bella" "1.0" "wav" entryFix
    hmd rfl
  exact ⟨by rw [h.1], h.2 1024 fsEmpty (Or.inl rfl)⟩

/-! ### LRU helper lemmas (for C2, C9, C10) -/

theorem sumSizes_nil : sumSizes [] = 0 := rfl

theorem sumSizes_cons (p : String × (Bytes × Nat)) (l : List (String × (Bytes × Nat))) :
    sumSizes (p :: l) = (p.2.2 : Int) + sumSizes l := by
  simp [sumSizes]

theorem sumSizes_append (l1 l2 : List (String × (Bytes × Nat))) :
    sumSizes (l1 ++ l2) = sumSizes l1 + sumSizes l2 := by
  simp [sumSizes]

theorem sumSizes_nonneg (l : List (String × (Bytes × Nat))) : 0 ≤ sumSizes l := by
  apply List.sum_nonneg
  intro x hx
  obtain ⟨p, _, rfl⟩ := List.mem_map.mp hx
  positivity

theorem sumSizes_eraseKey (l : List (String × (Bytes × Nat))) (k : String)
    (e : Bytes × Nat) (hnd : (l.map Prod.fst).Nodup) (hl : lookupKey l k = some e) :
    sumSizes (eraseKey l k) = sumSizes l - e.2 := by
  induction l with
  | nil => simp [lookupKey] at hl
  | cons p rest ih =>
      obtain ⟨k2, v2⟩ := p
      rw [eraseKey_cons]
      by_cases h : k2 = k
      · subst h
        rw [lookupKey_cons, if_pos rfl] at hl
        have he : v2 = e := Option.some.inj hl
        subst he
        have hk2 : ∀ q ∈ rest, q.1 ≠ k2 := by
          intro q hq hqk
          have : k2 ∈ rest.map Prod.fst := hqk ▸ List.mem_map_of_mem Prod.fst hq
          exact (List.nodup_cons.mp (by simpa using hnd)).1 this
        rw [if_pos rfl, eraseKey_of_forall_ne rest k2 hk2, sumSizes_cons]
        ring
      · rw [if_neg h, sumSizes_cons, sumSizes_cons]
        rw [lookupKey_cons, if_neg h] at hl
        rw [ih (List.nodup_cons.mp (by simpa using hnd)).2 hl]
        ring

/-- When the incoming size alone exceeds the memory budget and the
running counter equals the stored total, the eviction loop of
`LRUCache.put` drains the whole cache and stops (it terminates even
though the item still does not fit). -/
theorem evictLoop_oversize (ms : Nat) (mm : Int) (sz : Nat) (hsz : mm < (sz : Int)) :
    ∀ l : List (String × (Bytes × Nat)), evictLoop ms mm sz l (sumSizes l) = ([], 0) := by
  intro l
  induction l with
  | nil => simp [evictLoop, sumSizes]
  | cons p rest ih =>
      obtain ⟨k0, e0⟩ := p
      have hmem : 0 ≤ sumSizes rest := sumSizes_nonneg rest
      have hcond : sumSizes ((k0, e0) :: rest) + (sz : Int) > mm := by
        have := sumSizes_nonneg ((k0, e0) :: rest)
        omega
      simp only [evictLoop, if_pos (Or.inr hcond)]
      have : sumSizes ((k0, e0) :: rest) - (e0.2 : Int) = sumSizes rest := by
        rw [sumSizes_cons]; ring
      rw [this]
      exact ih

theorem lookupKey_mem (l : List (String × β)) (k : String) (e : β)
    (h : lookupKey l k = some e) : (k, e) ∈ l := by
  induction l with
  | nil => simp [lookupKey] at h
  | cons p rest ih =>
      obtain ⟨k2, v2⟩ := p
      rw [lookupKey_cons] at h
      by_cases hk : k2 = k
      · rw [if_pos hk] at h
        subst hk
        have := Option.some.inj h
        subst this
        exact List.mem_cons_self _ _
      · rw [if_neg hk] at h
        exact List.mem_cons_of_mem _ (ih h)

theorem length_eraseKey (l : List (String × β)) (k : String) (e : β)
    (hnd : (l.map Prod.fst).Nodup) (hl : lookupKey l k = some e) :
    (eraseKey l k).length + 1 = l.length := by
  induction l with
  | nil => simp [lookupKey] at hl
  | cons p rest ih =>
      obtain ⟨k2, v2⟩ := p
      rw [eraseKey_cons]
      by_cases h : k2 = k
      · subst h
        have hk2 : ∀ q ∈ rest, q.1 ≠ k2 := by
          intro q hq hqk
          have : k2 ∈ rest.map Prod.fst := hqk ▸ List.mem_map_of_mem Prod.fst hq
          exact (List.nodup_cons.mp (by simpa using hnd)).1 this
        rw [if_pos rfl, eraseKey_of_forall_ne rest k2 hk2]
        simp
      · rw [lookupKey_cons, if_neg h] at hl
        rw [if_neg h]
        simp only [List.length_cons]
        rw [ih (List.nodup_cons.mp (by simpa using hnd)).2 hl]

theorem lookupKey_append_of_none (l1 l2 : List (String × β)) (k : String)
    (h : lookupKey l1 k = none) : lookupKey (l1 ++ l2) k = lookupKey l2 k := by
  induction l1 with
  | nil => simp
  | cons p rest ih =>
      obtain ⟨k2, v2⟩ := p
      rw [lookupKey_cons] at h
      by_cases hk : k2 = k
      · rw [if_pos hk] at h; exact absurd h (by simp)
      · rw [if_neg hk] at h
        simpa [lookupKey_cons, hk] using ih h

theorem lookupKey_append_of_some (l1 l2 : List (String × β)) (k : String) (e : β)
    (h : lookupKey l1 k = some e) : lookupKey (l1 ++ l2) k = some e := by
  induction l1 with
  | nil => simp [lookupKey] at h
  | cons p rest ih =>
      obtain ⟨k2, v2⟩ := p
      rw [lookupKey_cons] at h
      by_cases hk : k2 = k
      · rw [if_pos hk] at h
        simp [lookupKey_cons, hk, h]
      · rw [if_neg hk] at h
        simpa [lookupKey_cons, hk] using ih h

/-- A full cache whose memory is ample pops exactly one entry — the
front (LRU) one — and stops. -/
theorem evictLoop_pop_once (ms : Nat) (mm : Int) (sz : Nat)
    (p : String × (Bytes × Nat)) (rest : List (String × (Bytes × Nat))) (mem : Int)
    (hlen : (p :: rest).length ≥ ms)
    (hrest : rest.length < ms)
    (hmem2 : mem - p.2.2 + sz ≤ mm) :
    evictLoop ms mm sz (p :: rest) mem = (rest, mem - p.2.2) := by
  obtain ⟨k0, e0⟩ := p
  rw [evictLoop, if_pos (Or.inl hlen)]
  cases rest with
  | nil => rfl
  | cons q r2 =>
      rw [evictLoop, if_neg]
      push_neg
      exact ⟨by simpa using hrest, by simpa using hmem2⟩

/-! ### C9 — LRU eviction order and get-refresh (confirmed) -/

/-- C9: in a well-formed cache that is full (`length = max_size ≥ 1`)
with ample byte budget, (A) putting a fresh key evicts exactly the
front (least-recently-used) entry: the result is the old cache minus
its head, with the new entry at the MRU end; and (B) a `get` hit first
moves the accessed entry to the MRU end, so when `max_size ≥ 2` it
survives the eviction forced by a subsequent fresh insertion. -/
theorem C9_lru_eviction (c : LRUCache) (k2 : String) (v2 : Bytes)
    (hwf : c.WF)
    (hfull : c.cache.length = c.max_size)
    (hpos : 1 ≤ c.max_size)
    (hroom : c.current_memory + (v2.length : Int) ≤ (c.max_memory : Int))
    (hfresh : lookupKey c.cache k2 = none) :
    (c.put k2 v2).cache = c.cache.tail ++ [(k2, (v2, v2.length))] ∧
    ∀ k e, lookupKey c.cache k = some e →
      ((c.get k).2).cache = eraseKey c.cache k ++ [(k, e)] ∧
      (2 ≤ c.max_size →
        lookupKey (((c.get k).2).put k2 v2).cache k = some e) := by
  obtain ⟨hnd, hlen, hmem⟩ := hwf
  constructor
  · -- part A
    unfold LRUCache.put
    simp only [hfresh]
    cases hc : c.cache with
    | nil =>
        rw [hc] at hfull
        simp only [List.length_nil] at hfull
        omega
    | cons p rest =>
        have h1 : (p :: rest).length ≥ c.max_size := by rw [← hfull, hc]
        have h2 : rest.length < c.max_size := by
          have := congrArg List.length hc
          simp only [List.length_cons] at this
          omega
        have h3 : c.current_memory - (p.2.2 : Int) + v2.length ≤ (c.max_memory : Int) := by
          have hp : (0 : Int) ≤ (p.2.2 : Int) := Int.natCast_nonneg _
          linarith
        rw [evictLoop_pop_once _ _ _ p rest _ h1 h2 h3]
        rfl
  · -- part B
    intro k e hk
    have hmove : ((c.get k).2).cache = eraseKey c.cache k ++ [(k, e)] := by
      simp [LRUCache.get, hk, moveToEnd]
    refine ⟨hmove, ?_⟩
    intro hms2
    have hkk2 : k ≠ k2 := by
      intro hkk
      rw [hkk, hfresh] at hk
      exact absurd hk (by simp)
    -- the fresh key is absent from the moved cache
    have hfresh2 : lookupKey ((c.get k).2).cache k2 = none := by
      rw [hmove]
      rw [lookupKey_append_of_none]
      · rw [lookupKey_cons]
        rw [if_neg hkk2]
        rfl
      · rw [lookupKey_eraseKey_ne _ _ _ (fun hh => hkk2 hh.symm)]
        exact hfresh
    -- the moved cache still has max_size entries, with a non-empty erased part
    have herase : (eraseKey c.cache k).length + 1 = c.max_size := by
      rw [length_eraseKey c.cache k e hnd hk, hfull]
    obtain ⟨q, rest2, hq⟩ : ∃ q rest2, eraseKey c.cache k = q :: rest2 := by
      cases he : eraseKey c.cache k with
      | nil => rw [he] at herase; simp at herase; omega
      | cons q rest2 => exact ⟨q, rest2, rfl⟩
    unfold LRUCache.put
    simp only [hfresh2]
    have hcache : ((c.get k).2).cache = q :: (rest2 ++ [(k, e)]) := by
      rw [hmove, hq]; rfl
    have hmemget : ((c.get k).2).current_memory = c.current_memory := by
      simp [LRUCache.get, hk]
    rw [hcache, hmemget]
    have h1 : (q :: (rest2 ++ [(k, e)])).length ≥ ((c.get k).2).max_size := by
      have : ((c.get k).2).max_size = c.max_size := by simp [LRUCache.get, hk]
      rw [this]
      have := congrArg List.length hq
      simp only [List.length_cons] at this ⊢
      simp only [List.length_append, List.length_cons, List.length_nil]
      omega
    have h2 : (rest2 ++ [(k, e)]).length < ((c.get k).2).max_size := by
      have hms : ((c.get k).2).max_size = c.max_size := by simp [LRUCache.get, hk]
      rw [hms]
      have := congrArg List.length hq
      simp only [List.length_cons] at this
      simp only [List.length_append, List.length_cons, List.length_nil]
      omega
    have h3 : c.current_memory - (q.2.2 : Int) + v2.length ≤ (((c.get k).2).max_memory : Int) := by
      have hmm : ((c.get k).2).max_memory = c.max_memory := by simp [LRUCache.get, hk]
      rw [hmm]
      have hp : (0 : Int) ≤ (q.2.2 : Int) := Int.natCast_nonneg _
      linarith
    rw [evictLoop_pop_once _ _ _ q (rest2 ++ [(k, e)]) _ h1 h2 h3]
    have hrest2 : lookupKey rest2 k = none := by
      apply lookupKey_eq_none_of_forall_ne
      intro p hp
      exact mem_eraseKey_ne c.cache k p (hq ▸ List.mem_cons_of_mem q hp)
    exact lookupKey_append_of_some _ _ _ e (by
      rw [lookupKey_append_of_none _ _ _ hrest2]
      rw [lookupKey_cons, if_pos rfl])

theorem C9_lru_eviction_witness :
    (cFix.put "c" [3]).cache = cFix.cache.tail ++ [("c", ([3], 1))] ∧
    lookupKey (((cFix.get "a").2).put "c" [3]).cache "a" = some ([1], 1) := by
  have h := C9_lru_eviction cFix "c" [3] (by decide) (by decide) (by decide)
    (by decide) (by decide)
  exact ⟨h.1, (h.2 "a" ([1], 1) (by decide)).2 (by decide)⟩

/-! ### C2 — oversized item is retained, not rejected (corrected) -/

/-- C2 counterexample: with a 0-MB budget (`max_memory = 0`), a 1-byte
value exceeds the budget, yet after `put` the cache holds exactly that
item and `get` *hits*, where the claim demands an empty cache and a
miss. -/
theorem C2_oversize_retained :
    ((LRUCache.init 100 0).put "k" [7]).cache = [("k", ([7], 1))] ∧
    (((LRUCache.init 100 0).put "k" [7]).get "k").1 = some [7] := by
  refine ⟨by decide, by decide⟩

/-- C2 amended: storing a value larger than `max_memory` makes the
eviction loop drain the cache and terminate, but the item is then
inserted regardless: the cache ends holding exactly the new entry,
`current_memory` equals the new length (exceeding the budget), no
exception is raised, and a subsequent `get` hits. -/
theorem C2_oversize_put (c : LRUCache) (key : String) (value : Bytes)
    (hwf : c.WF) (hsz : (c.max_memory : Int) < (value.length : Int)) :
    (c.put key value).cache = [(key, (value, value.length))] ∧
    (c.put key value).current_memory = (value.length : Int) ∧
    ((c.put key value).get key).1 = some value := by
  obtain ⟨hnd, hlen, hmem⟩ := hwf
  have hkey : (c.put key value).cache = [(key, (value, value.length))] ∧
      (c.put key value).current_memory = (value.length : Int) := by
    unfold LRUCache.put
    cases hl : lookupKey c.cache key with
    | none =>
        simp only [hl]
        rw [hmem, evictLoop_oversize _ _ _ hsz]
        simp
    | some e =>
        simp only [hl]
        have : c.current_memory - (e.2 : Int) = sumSizes (eraseKey c.cache key) := by
          rw [hmem, sumSizes_eraseKey c.cache key e hnd hl]
        rw [this, evictLoop_oversize _ _ _ hsz]
        simp
  refine ⟨hkey.1, hkey.2, ?_⟩
  simp [LRUCache.get, hkey.1]

theorem C2_oversize_put_witness :
    (LRUCache.init 100 0).WF ∧
    ((LRUCache.init 100 0).max_memory : Int) < (([7] : Bytes).length : Int) ∧
    ((LRUCache.init 100 0).put "k" [7]).current_memory = (([7] : Bytes).length : Int) :=
  ⟨by decide, by decide,
   (C2_oversize_put (LRUCache.init 100 0) "k" [7] (by decide) (by decide)).2.1⟩

/-! ### C10 — the memory counter never drifts (confirmed) -/

theorem lookupKey_none_forall (l : List (String × β)) (k : String)
    (h : lookupKey l k = none) : ∀ p ∈ l, p.1 ≠ k := by
  induction l with
  | nil => intro p hp; simp at hp
  | cons q rest ih =>
      obtain ⟨k2, v2⟩ := q
      rw [lookupKey_cons] at h
      by_cases hk : k2 = k
      · rw [if_pos hk] at h; exact absurd h (by simp)
      · rw [if_neg hk] at h
        intro p hp
        rcases List.mem_cons.mp hp with hp | hp
        · subst hp; exact hk
        · exact ih h p hp

theorem sumSizes_take_drop (l : List (String × (Bytes × Nat))) (n : Nat) :
    sumSizes (l.take n) + sumSizes (l.drop n) = sumSizes l := by
  rw [← sumSizes_append, List.take_append_drop]

/-- The eviction loop returns a suffix of its input together with the
counter decremented by the sizes of the dropped prefix. -/
theorem evictLoop_spec (ms : Nat) (mm : Int) (sz : Nat) :
    ∀ l : List (String × (Bytes × Nat)), ∀ mem : Int,
      ∃ n, evictLoop ms mm sz l mem = (l.drop n, mem - sumSizes (l.take n)) := by
  intro l
  induction l with
  | nil =>
      intro mem
      exact ⟨0, by simp [evictLoop, sumSizes]⟩
  | cons p rest ih =>
      intro mem
      obtain ⟨k0, e0⟩ := p
      rw [evictLoop]
      by_cases h : ((k0, e0) :: rest).length ≥ ms ∨ mem + sz > mm
      · rw [if_pos h]
        obtain ⟨n, hn⟩ := ih (mem - (k0, e0).2.2)
        refine ⟨n + 1, ?_⟩
        rw [hn]
        simp only [List.drop_succ_cons, List.take_succ_cons, sumSizes_cons,
          Prod.mk.injEq]
        refine ⟨by trivial, by ring⟩
      · rw [if_neg h]
        exact ⟨0, by simp [sumSizes]⟩

/-- Well-formedness of the final state built by `LRUCache.put` from
any intermediate removal state whose accounting is consistent and
which no longer binds the inserted key. -/
theorem WF_put_main (c : LRUCache) (k : String) (v : Bytes)
    (l1 : List (String × (Bytes × Nat))) (m1 : Int)
    (hnd1 : (l1.map Prod.fst).Nodup) (hlen1 : ∀ p ∈ l1, p.2.2 = p.2.1.length)
    (hmem1 : m1 = sumSizes l1) (hne1 : ∀ p ∈ l1, p.1 ≠ k) :
    LRUCache.WF
      { c with
        cache := (evictLoop c.max_size c.max_memory v.length l1 m1).1 ++
          [(k, (v, v.length))]
        current_memory :=
          (evictLoop c.max_size c.max_memory v.length l1 m1).2 + v.length } := by
  obtain ⟨n, hevict⟩ := evictLoop_spec c.max_size c.max_memory v.length l1 m1
  rw [hevict]
  refine ⟨?_, ?_, ?_⟩
  · -- nodup
    show (((l1.drop n ++ [(k, (v, v.length))]).map Prod.fst)).Nodup
    simp only [List.map_append, List.map_cons, List.map_nil]
    apply List.Nodup.append
    · exact List.Nodup.sublist ((List.drop_sublist n l1).map Prod.fst) hnd1
    · exact List.nodup_singleton _
    · intro a ha hb
      simp only [List.mem_singleton] at hb
      subst hb
      obtain ⟨p, hp, rfl⟩ := List.mem_map.mp ha
      exact hne1 p (List.mem_of_mem_drop hp) rfl
  · -- sizes record lengths
    intro p hp
    rcases List.mem_append.mp hp with hp | hp
    · exact hlen1 p (List.mem_of_mem_drop hp)
    · simp only [List.mem_singleton] at hp
      subst hp
      rfl
  · -- counter equals sum
    show m1 - sumSizes (l1.take n) + (v.length : Int) =
      sumSizes (l1.drop n ++ [(k, (v, v.length))])
    rw [sumSizes_append, sumSizes_cons, sumSizes_nil, hmem1]
    have h := sumSizes_take_drop l1 n
    simp only []
    omega

/-- `put` preserves well-formedness. -/
theorem WF_put (c : LRUCache) (k : String) (v : Bytes) (hwf : c.WF) :
    (c.put k v).WF := by
  obtain ⟨hnd, hlen, hmem⟩ := hwf
  cases hl : lookupKey c.cache k with
  | none =>
      have hput : c.put k v =
          { c with
            cache := (evictLoop c.max_size c.max_memory v.length c.cache
              c.current_memory).1 ++ [(k, (v, v.length))]
            current_memory := (evictLoop c.max_size c.max_memory v.length c.cache
              c.current_memory).2 + v.length } := by
        simp [LRUCache.put, hl]
      rw [hput]
      exact WF_put_main c k v c.cache c.current_memory hnd hlen hmem
        (lookupKey_none_forall c.cache k hl)
  | some e =>
      have hput : c.put k v =
          { c with
            cache := (evictLoop c.max_size c.max_memory v.length
              (eraseKey c.cache k) (c.current_memory - e.2)).1 ++ [(k, (v, v.length))]
            current_memory := (evictLoop c.max_size c.max_memory v.length
              (eraseKey c.cache k) (c.current_memory - e.2)).2 + v.length } := by
        simp [LRUCache.put, hl]
      rw [hput]
      apply WF_put_main c k v (eraseKey c.cache k) (c.current_memory - e.2)
      · exact List.Nodup.sublist ((eraseKey_sublist c.cache k).map Prod.fst) hnd
      · intro p hp
        exact hlen p ((eraseKey_sublist c.cache k).mem hp)
      · rw [hmem, sumSizes_eraseKey c.cache k e hnd hl]
      · exact mem_eraseKey_ne c.cache k

theorem WF_get (c : LRUCache) (k : String) (hwf : c.WF) :
    ((c.get k).2).WF := by
  obtain ⟨hnd, hlen, hmem⟩ := hwf
  unfold LRUCache.get
  cases hl : lookupKey c.cache k with
  | none => exact ⟨hnd, hlen, hmem⟩
  | some e =>
      have hmv : moveToEnd c.cache k = eraseKey c.cache k ++ [(k, e)] := by
        simp [moveToEnd, hl]
      refine ⟨?_, ?_, ?_⟩
      · show ((moveToEnd c.cache k).map Prod.fst).Nodup
        rw [hmv]
        simp only [List.map_append, List.map_cons, List.map_nil]
        apply List.Nodup.append
        · exact List.Nodup.sublist ((eraseKey_sublist c.cache k).map Prod.fst) hnd
        · exact List.nodup_singleton _
        · intro a ha hb
          simp only [List.mem_singleton] at hb
          subst hb
          obtain ⟨p, hp, rfl⟩ := List.mem_map.mp ha
          exact mem_eraseKey_ne c.cache _ p hp rfl
      · show ∀ p ∈ moveToEnd c.cache k, p.2.2 = p.2.1.length
        rw [hmv]
        intro p hp
        rcases List.mem_append.mp hp with hp | hp
        · exact hlen p ((eraseKey_sublist c.cache k).mem hp)
        · simp only [List.mem_singleton] at hp
          subst hp
          exact hlen (k, e) (lookupKey_mem c.cache k e hl)
      · show c.current_memory = sumSizes (moveToEnd c.cache k)
        rw [hmv, sumSizes_append, sumSizes_cons, sumSizes_nil,
          sumSizes_eraseKey c.cache k e hnd hl, hmem]
        ring

theorem WF_clear (c : LRUCache) : c.clear.WF := by
  exact ⟨List.nodup_nil, by simp [LRUCache.clear], rfl⟩

theorem WF_init (ms mb : Nat) : (LRUCache.init ms mb).WF := by
  exact ⟨List.nodup_nil, by simp [LRUCache.init], rfl⟩

theorem WF_run (ops : List LRUOp) : ∀ c : LRUCache, c.WF →
    (c.run ops).WF := by
  induction ops with
  | nil => intro c hwf; exact hwf
  | cons op rest ih =>
      intro c hwf
      show ((c.apply op).run rest).WF
      apply ih
      cases op with
      | get k => exact WF_get c k hwf
      | put k v => exact WF_put c k v hwf
      | clear => exact WF_clear c

theorem sumSizes_eq_actualBytes (l : List (String × (Bytes × Nat)))
    (h : ∀ p ∈ l, p.2.2 = p.2.1.length) :
    sumSizes l = (l.map (fun p => ((p.2.1.length : Int)))).sum := by
  unfold sumSizes
  congr 1
  apply List.map_congr_left
  intro p hp
  rw [h p hp]

/-- C10: starting from a fresh cache, after any sequence of `get`,
`put` and `clear` operations, `current_memory` equals the sum of the
byte lengths of all stored values (so the `memory_mb` statistic, which
is `current_memory` up to the MB division, cannot drift), and the keys
remain distinct. -/
theorem C10_memory_accounting (ms mb : Nat) (ops : List LRUOp) :
    ((LRUCache.init ms mb).run ops).current_memory =
      actualBytes ((LRUCache.init ms mb).run ops) ∧
    ((((LRUCache.init ms mb).run ops).cache.map Prod.fst)).Nodup := by
  have hwf := WF_run ops (LRUCache.init ms mb) (WF_init ms mb)
  obtain ⟨hnd, hlen, hmem⟩ := hwf
  refine ⟨?_, hnd⟩
  rw [hmem, sumSizes_eq_actualBytes _ hlen]
  rfl

/-! ### C8 — disk eviction: ascending LRU prefix with skip-on-failure
(confirmed) -/

/-- The disk eviction `while` loop processes exactly a prefix of its
candidate list: there is an `n` such that the result is the fold of
`evictStep` over the first `n` candidates (failed deletions included,
each skipped in place), every shorter prefix still leaves the incoming
write unfit, and the loop stopped either because the write now fits or
because the candidates ran out. -/
theorem evictDisk_take_spec (new max : Nat) :
    ∀ l : List (String × DiskEntry), ∀ st : List (String × DiskEntry) × FS × Int,
      ∃ n, n ≤ l.length ∧
        evictDisk new max l st = List.foldl evictStep st (l.take n) ∧
        (∀ m < n, (List.foldl evictStep st (l.take m)).2.2 + (new : Int) > (max : Int)) ∧
        ((List.foldl evictStep st (l.take n)).2.2 + (new : Int) ≤ (max : Int) ∨
          n = l.length) := by
  intro l
  induction l with
  | nil =>
      intro st
      refine ⟨0, Nat.le_refl 0, rfl, ?_, Or.inr rfl⟩
      intro m hm
      exact absurd hm (Nat.not_lt_zero m)
  | cons c rest ih =>
      intro st
      by_cases h : st.2.2 + (new : Int) > (max : Int)
      · obtain ⟨n, hn, heq, hmin, hend⟩ := ih (evictStep st c)
        refine ⟨n + 1, Nat.succ_le_succ hn, ?_, ?_, ?_⟩
        · rw [evictDisk, if_pos h, heq]
          rfl
        · intro m hm
          cases m with
          | zero => simpa using h
          | succ m2 =>
              have : (List.foldl evictStep st ((c :: rest).take (m2 + 1))) =
                  List.foldl evictStep (evictStep st c) (rest.take m2) := rfl
              rw [this]
              exact hmin m2 (Nat.lt_of_succ_lt_succ hm)
        · have : (List.foldl evictStep st ((c :: rest).take (n + 1))) =
              List.foldl evictStep (evictStep st c) (rest.take n) := rfl
          rw [this]
          rcases hend with hend | hend
          · exact Or.inl hend
          · exact Or.inr (by simp [hend])
      · refine ⟨0, Nat.zero_le _, ?_, ?_, Or.inl ?_⟩
        · rw [evictDisk, if_neg h]
          rfl
        · intro m hm
          exact absurd hm (Nat.not_lt_zero m)
        · simpa using Int.not_lt.mp h

/-- C8: the candidates are the metadata entries sorted ascending by
`last_access` (a permutation of the whole store — true whole-store
LRU); when the incoming write already fits nothing is touched;
otherwise `_cleanup_if_needed` applies `evictStep` — which deletes the
file, drops the record and decrements the running total, or skips in
place when the unlink fails — to exactly a prefix of that ascending
list, minimal in that every shorter prefix still leaves the write
unfit, stopping when it fits or no candidates remain. -/
theorem C8_disk_eviction_order (d : DiskCache) (fs : FS) (new_size : Nat) :
    List.Sorted leLastAccess (sortByLastAccess d.metadata) ∧
    (sortByLastAccess d.metadata).Perm d.metadata ∧
    (totalSize d.metadata + (new_size : Int) ≤ (d.max_size : Int) →
      cleanupIfNeeded d fs new_size = (d, fs)) ∧
    ∃ n, n ≤ (sortByLastAccess d.metadata).length ∧
      (totalSize d.metadata + (new_size : Int) > (d.max_size : Int) →
        cleanupIfNeeded d fs new_size =
          ({ d with metadata :=
              (List.foldl evictStep (d.metadata, fs, totalSize d.metadata)
                ((sortByLastAccess d.metadata).take n)).1 },
           (List.foldl evictStep (d.metadata, fs, totalSize d.metadata)
             ((sortByLastAccess d.metadata).take n)).2.1)) ∧
      (∀ m < n,
        (List.foldl evictStep (d.metadata, fs, totalSize d.metadata)
          ((sortByLastAccess d.metadata).take m)).2.2 + (new_size : Int) >
            (d.max_size : Int)) ∧
      ((List.foldl evictStep (d.metadata, fs, totalSize d.metadata)
          ((sortByLastAccess d.metadata).take n)).2.2 + (new_size : Int) ≤
            (d.max_size : Int) ∨
        n = (sortByLastAccess d.metadata).length) := by
  refine ⟨List.sorted_insertionSort leLastAccess d.metadata,
    List.perm_insertionSort leLastAccess d.metadata, ?_, ?_⟩
  · intro hfit
    unfold cleanupIfNeeded
    rw [if_neg (by simpa using Int.not_lt.mpr hfit)]
  · obtain ⟨n, hn, heq, hmin, hend⟩ :=
      evictDisk_take_spec new_size d.max_size (sortByLastAccess d.metadata)
        (d.metadata, fs, totalSize d.metadata)
    refine ⟨n, hn, ?_, hmin, hend⟩
    intro hover
    unfold cleanupIfNeeded
    rw [if_pos (by simpa using hover), heq]

theorem C8_disk_eviction_order_witness :
    cleanupIfNeeded diskFix fsFix 5 = (diskFix, fsFix) :=
  (C8_disk_eviction_order diskFix fsFix 5).2.2.1 (by decide)

/-! ### C1 — put/get round-trip (corrected) -/

theorem truthy_some_of_ne_nil (data : Bytes) (h : data ≠ []) :
    truthy (some data) = true := by
  cases data with
  | nil => exact absurd rfl h
  | cons a l => rfl

theorem hot_put_keys (h : HotCache) (k : String) (v : Bytes) :
    (h.put k v).hot_cache_keys = h.hot_cache_keys := by
  unfold HotCache.put
  split <;> rfl

/-- A disk `put` immediately followed by a disk `get` of the same
request returns exactly the stored bytes: the metadata record just
inserted is found under the same content hash, and its path maps to
the file just written. -/
theorem disk_put_get_roundtrip (d : DiskCache) (fs : FS) (now now2 : Nat)
    (t v s f : String) (data : Bytes) :
    (((d.put fs now t v s f data).2.1).get
      ((d.put fs now t v s f data).2.2) now2 t v s f).1 = some data := by
  simp only [DiskCache.put, DiskCache.get, saveMetadata,
    lookupKey_dictInsert_self]

/-- C1 counterexample: a put of the *empty* byte payload followed by
an immediate get on a fresh manager returns `None`, not the stored
(empty) bytes — `if disk_result:` and `if lru_result:` treat `b""` as
falsy, so every tier's hit is discarded. -/
theorem C1_empty_payload_lost :
    (CacheManager.get_audio phZero
      (CacheManager.put_audio phZero freshManager fsEmpty 10 "hi" "af_bella" "1.0" "wav" []).1
      (CacheManager.put_audio phZero freshManager fsEmpty 10 "hi" "af_bella" "1.0" "wav" []).2
      11 "hi" "af_bella" "1.0" "wav").1 = none := by
  decide

/-- C1 amended: for every state, putAudio immediately followed by
getAudio of the same request returns exactly the stored bytes,
provided (i) the payload is non-empty (an empty payload is falsy in
every `if result:` test and is reported as absence), and (ii) the hot
tier holds no stale unoverwritable entry under the request's composite
key (if the text is curated, either the full composite key is itself
curated — so the put refreshes the hot entry — or no bytes are stored
under it). -/
theorem C1_put_get_roundtrip (pyHash : String → Int) (m : CacheManager) (fs : FS)
    (now now2 : Nat) (t v s f : String) (data : Bytes)
    (hdata : data ≠ [])
    (hhot : pyLower t ∈ m.hot.hot_cache_keys →
      pyLower (hotKeyOf t v s f) ∈ m.hot.hot_cache_keys ∨
      lookupKey m.hot.cache (hotKeyOf t v s f) = none) :
    (CacheManager.get_audio pyHash
      (CacheManager.put_audio pyHash m fs now t v s f data).1
      (CacheManager.put_audio pyHash m fs now t v s f data).2
      now2 t v s f).1 = some data := by
  have hdisk : (((m.disk.put fs now t v s f data).2.1).get
      ((m.disk.put fs now t v s f data).2.2) now2 t v s f).1 = some data :=
    disk_put_get_roundtrip m.disk fs now now2 t v s f data
  by_cases hc : pyLower t ∈ m.hot.hot_cache_keys
  · by_cases hcur : pyLower (hotKeyOf t v s f) ∈ m.hot.hot_cache_keys
    · -- the put refreshes the hot entry and the get hits it
      simp only [CacheManager.put_audio, CacheManager.get_audio,
        hot_put_keys, hc, if_pos, if_true, HotCache.put, HotCache.get, hcur,
        lookupKey_dictInsert_self, truthy_some_of_ne_nil data hdata]
    · -- the hot put is a no-op and the hot entry is absent: disk serves
      have hnone : lookupKey m.hot.cache (hotKeyOf t v s f) = none :=
        (hhot hc).resolve_left hcur
      simp only [CacheManager.put_audio, CacheManager.get_audio,
        hot_put_keys, hc, if_pos, HotCache.put, hcur, if_neg, if_false,
        HotCache.get, hnone]
      simp [hc, hcur, hnone, truthy, hdisk, hdata,
        truthy_some_of_ne_nil data hdata]
  · -- text not curated: the hot tier is skipped entirely; disk serves
    simp only [CacheManager.put_audio, CacheManager.get_audio, hot_put_keys,
      hc, if_neg, if_false]
    simp [hc, truthy, hdisk, hdata, truthy_some_of_ne_nil data hdata]

theorem C1_put_get_roundtrip_witness :
    (([9] : Bytes) ≠ []) ∧
    (pyLower "hello" ∈ mgrHot.hot.hot_cache_keys →
      pyLower (hotKeyOf "hello" "af_bella" "1.0" "wav") ∈ mgrHot.hot.hot_cache_keys ∨
      lookupKey mgrHot.hot.cache (hotKeyOf "hello" "af_bella" "1.0" "wav") = none) ∧
    (CacheManager.get_audio phZero
      (CacheManager.put_audio phZero mgrHot fsEmpty 10 "hello" "af_bella" "1.0" "wav" [9]).1
      (CacheManager.put_audio phZero mgrHot fsEmpty 10 "hello" "af_bella" "1.0" "wav" [9]).2
      11 "hello" "af_bella" "1.0" "wav").1 = some [9] :=
  ⟨by decide, fun _ => Or.inr rfl,
   C1_put_get_roundtrip phZero mgrHot fsEmpty 10 11 "hello" "af_bella" "1.0" "wav" [9]
     (by decide) (fun _ => Or.inr rfl)⟩

theorem C6_clear_cache_unknown_tier_witness :
    (some "bogus" ≠ some "hot") ∧ (some "bogus" ≠ some "disk") ∧
    (some "bogus" ≠ some "memory") ∧ (some "bogus" ≠ (none : Option String)) ∧
    mgrFix.clear_cache fsFix (some "bogus") = (mgrFix, fsFix) :=
  ⟨by decide, by decide, by decide, by decide,
   C6_clear_cache_unknown_tier mgrFix fsFix (some "bogus")
     (by decide) (by decide) (by decide) (by decide)⟩

end Kokori
